import Mathlib

/-!
# Verification of the ETL_Stock time-series reconciliation engine

A shallow embedding of the core transformations of `src/reader.py`,
`src/merge.py` and `src/utils.py` (an ETL pipeline for warehouse
on-hand inventory), together with theorems settling the specification
claims about them.

Modelling conventions:
* A per-(item, warehouse) series, ordered by `RecordDate`, is a
  `List (Option ℚ)`; `none` is a SQL NULL `OnHand` cell.  Doubles are
  modelled by `ℚ` (no claim depends on floating-point rounding).
* Spark window functions `last(.., ignorenulls)` over
  `rowsBetween(unboundedPreceding, -1)` and `first(.., ignorenulls)` over
  `rowsBetween(1, unboundedFollowing)` become `prev_non_null` /
  `next_non_null` below.
* Spark SQL three-valued logic: a `filter` keeps a row only when the
  predicate is literally true, so a comparison against a NULL cell drops
  the row; `F.when` chains yield NULL when no branch fires unless an
  `otherwise` is given.  These are made explicit at each use site.
-/

set_option maxRecDepth 4000

namespace ETLStock

/-- Absolute value on ℚ, written out so that it is an executable
definition (`F.abs` in Spark); `qabs_eq_abs` below identifies it with
Mathlib's `|·|`. -/
def qabs (x : ℚ) : ℚ := if x < 0 then -x else x

/-- Last non-null value of a list of nullable cells; embeds
`F.last("OnHand", ignorenulls=True)` over an unbounded preceding frame
(`reader.py` line 160). -/
def lastValid : List (Option ℚ) → Option ℚ
  | [] => none
  | o :: rest =>
    match lastValid rest with
    | some v => some v
    | none => o

/-- First non-null value of a list of nullable cells; embeds
`F.first("OnHand", ignorenulls=True)` over an unbounded following frame
(`reader.py` line 163). -/
def firstValid : List (Option ℚ) → Option ℚ
  | [] => none
  | none :: rest => firstValid rest
  | some v :: _ => some v

/-- `prev_non_null` of `reader.py` line 160: the nearest earlier non-null
`OnHand` in the series (rows strictly before row `i`). -/
def prev_non_null (xs : List (Option ℚ)) (i : ℕ) : Option ℚ :=
  lastValid (xs.take i)

/-- `next_non_null` of `reader.py` line 163: the nearest later non-null
`OnHand` in the series (rows strictly after row `i`). -/
def next_non_null (xs : List (Option ℚ)) (i : ℕ) : Option ℚ :=
  firstValid (xs.drop (i + 1))

/-- `abs_change` of `reader.py` line 168:
`F.when(prev_non_null.isNotNull(), F.abs(F.col("OnHand") - prev_non_null))`.
NULL when the row value or the previous valid value is NULL. -/
def abs_change (v p : Option ℚ) : Option ℚ :=
  match v, p with
  | some x, some pv => some (qabs (x - pv))
  | _, _ => none

/-- `rel_change` of `reader.py` lines 169-172:
`F.when(prev.isNotNull() & (prev != 0.0), F.abs((OnHand - prev) / prev))`.
NULL when either operand is NULL or the previous valid value is zero. -/
def rel_change (v p : Option ℚ) : Option ℚ :=
  match v, p with
  | some x, some pv => if pv ≠ 0 then some (qabs ((x - pv) / pv)) else none
  | _, _ => none

/-- `is_outlier` of `reader.py` lines 174-180: the row value is non-null and
either change metric is non-null and exceeds its threshold. -/
def is_outlier (aj rj : ℚ) (v p : Option ℚ) : Bool :=
  v.isSome &&
    ((match abs_change v p with
      | some a => decide (a > aj)
      | none => false) ||
     (match rel_change v p with
      | some r => decide (r > rj)
      | none => false))

/-- `filled_onhand` of `reader.py` lines 183-189: the replacement rule, a
first-match `F.when` chain over (outlier flag, row value, previous valid,
next valid). -/
def filled_onhand (f : Bool) (v p q : Option ℚ) : Option ℚ :=
  if f && p.isSome then p
  else if f && p.isNone && q.isSome then q
  else if v.isNone && p.isSome then p
  else if v.isNone && p.isNone && q.isSome then q
  else v

/-- The outlier flags of a whole series (`OutlierFlag` column,
`reader.py` line 194). -/
def flagSeries (aj rj : ℚ) (xs : List (Option ℚ)) : List Bool :=
  (List.range xs.length).map fun i =>
    is_outlier aj rj (xs.getD i none) (prev_non_null xs i)

/-- The repaired values of a whole series (`OnHand` column after
replacement, `reader.py` line 195). -/
def repairSeries (aj rj : ℚ) (xs : List (Option ℚ)) : List (Option ℚ) :=
  (List.range xs.length).map fun i =>
    filled_onhand (is_outlier aj rj (xs.getD i none) (prev_non_null xs i))
      (xs.getD i none) (prev_non_null xs i) (next_non_null xs i)

/-- One output row of the outlier stage: the repaired value, the retained
raw value (`OnHand_raw`, `reader.py` line 193) and the flag
(`OutlierFlag`, line 194; the code stores it as the strings
"true"/"false", modelled as `Bool`). -/
structure RepairedRow where
  onHand : Option ℚ
  onHandRaw : Option ℚ
  outlierFlag : Bool
  deriving Repr, DecidableEq

/-- The outlier-and-repair stage applied to a series
(`df_cleaned`, `reader.py` lines 191-200, restricted to the columns the
stage computes). -/
def repairStage (aj rj : ℚ) (xs : List (Option ℚ)) : List RepairedRow :=
  (List.range xs.length).map fun i =>
    { onHand := filled_onhand
        (is_outlier aj rj (xs.getD i none) (prev_non_null xs i))
        (xs.getD i none) (prev_non_null xs i) (next_non_null xs i)
      onHandRaw := xs.getD i none
      outlierFlag := is_outlier aj rj (xs.getD i none) (prev_non_null xs i) }

/-- The repair rule exactly as the specification words it (§4.3, repair
clauses 1-5), used as the refinement target for claim C2.  It is written
from the spec's prose, not from the code. -/
def specRepairRule (outlier : Bool) (v p q : Option ℚ) : Option ℚ :=
  match outlier, v, p, q with
  | true, _, some pv, _ => some pv
  | true, _, none, some nv => some nv
  | false, none, some pv, _ => some pv
  | false, none, none, some nv => some nv
  | _, _, _, _ => v

/-- A staged row as Spark first sees it (`reader.py` line 121 output
schema plus nothing else): every cell still a nullable string. -/
structure RawRow where
  itemCode : Option String
  whsCode : Option String
  onHand : Option String
  recordDate : Option String
  deriving Repr, DecidableEq

/-- `ValidFor` assignment of `reader.py` line 126:
`when(col("OnHand") == "DC", "N").otherwise("Y")`; a NULL `OnHand`
compares as not-true, so it falls to the otherwise-branch. -/
def validForOf (r : RawRow) : String :=
  if r.onHand = some "DC" then "N" else "Y"

/-- A row after the structural cleaning of `reader.py` lines 124-137:
all key fields present, `OnHand` cast to a number, non-null and
non-zero.  `recordDate` is still the raw date string; it is normalised
after the business-key dedup (line 140). -/
structure CleanRow where
  itemCode : String
  whsCode : String
  onHand : ℚ
  recordDate : String
  validFor : String
  deriving Repr, DecidableEq

/-- Row-local part of the structural cleaning, `reader.py` lines 124-133:
`na.drop` on the four key columns, `ValidFor` assignment, the `!= "DC"`
filter, the cast to double, and the `!= 0.0` filter.  Spark three-valued
logic: when the cast yields NULL, `col("OnHand") != 0.0` is NULL, which a
`filter` treats as not-true, so the row is dropped.  The cast itself is a
parameter `castD` (Spark's string→double cast). -/
def cleanRow? (castD : String → Option ℚ) (r : RawRow) : Option CleanRow :=
  match r.itemCode, r.whsCode, r.onHand, r.recordDate with
  | some ic, some wc, some oh, some rd =>
    if oh = "DC" then none
    else
      match castD oh with
      | some q => if q = 0 then none else some ⟨ic, wc, q, rd, validForOf r⟩
      | none => none
  | _, _, _, _ => none

/-- Digit-string value, `none` unless the character list is a non-empty
run of decimal digits. -/
def digitsVal (cs : List Char) : Option ℕ :=
  if cs ≠ [] ∧ cs.all (fun c => c.isDigit) then
    some (cs.foldl (fun n c => 10 * n + (c.toNat - 48)) 0)
  else none

/-- Concrete model of Spark's string→double cast restricted to plain
decimal literals (optional sign, digits, optional fractional part):
any other string casts to NULL, which is the behaviour the claims
depend on.  Used to instantiate the `castD` parameter on concrete
inputs. -/
def castDouble (s : String) : Option ℚ :=
  let core : List Char → Option ℚ := fun cs =>
    match cs.dropWhile (fun c => c ≠ '.') with
    | [] => (digitsVal cs).map (fun n => (n : ℚ))
    | _ :: fp =>
      match digitsVal (cs.takeWhile (fun c => c ≠ '.')), digitsVal fp with
      | some n, some f => some ((n : ℚ) + (f : ℚ) / (10 : ℚ) ^ fp.length)
      | _, _ => none
  match s.toList with
  | '-' :: rest => (core rest).map (fun x => -x)
  | cs => core cs

/-- Best element of `r :: l` under a strict "replace the current best"
scan; embeds keeping the `row_number() == 1` row of a window partition
(the fold visits the partition in encounter order, so ties keep the
earlier row). -/
def pickBest {α : Type} (better : α → α → Bool) (r : α) (l : List α) : α :=
  l.foldl (fun b s => if better s b then s else b) r

/-- Fuelled worker for `dedupBy`; the fuel is the list length at the
top-level call, so the zero-fuel branch is never reached. -/
def dedupByF {α κ : Type} [DecidableEq κ] (key : α → κ) (better : α → α → Bool) :
    ℕ → List α → List α
  | _, [] => []
  | 0, _ :: _ => []
  | fuel + 1, r :: rest =>
    pickBest better r (rest.filter (fun s => key s = key r)) ::
      dedupByF key better fuel (rest.filter (fun s => ¬ key s = key r))

/-- `row_number().over(Window.partitionBy(key).orderBy(ord)) == 1`
deduplication: one row per key, the best row of each partition under
`better` (strictly-better replaces, so ties keep the earliest row). -/
def dedupBy {α κ : Type} [DecidableEq κ] (key : α → κ) (better : α → α → Bool)
    (l : List α) : List α :=
  dedupByF key better l.length l

/-- The business key of a cleaned row (`reader.py` line 136 partition). -/
def bkeyC (r : CleanRow) : String × String × String :=
  (r.itemCode, r.whsCode, r.recordDate)

/-- Business-key deduplication of `reader.py` lines 135-137:
`Window.partitionBy("ItemCode","WhsCode","RecordDate").orderBy("OnHand")`
— ascending order, so `row_number() == 1` keeps the LOWEST `OnHand` of
each collision group. -/
def dedupAsc (rows : List CleanRow) : List CleanRow :=
  dedupBy bkeyC (fun s b => decide (s.onHand < b.onHand)) rows

/-- Structural Cleaner, `reader.py` lines 124-137: row-local cleaning
then business-key deduplication. -/
def structuralClean (castD : String → Option ℚ) (rows : List RawRow) :
    List CleanRow :=
  dedupAsc (rows.filterMap (cleanRow? castD))

/-- A cleaned row after date normalisation (`reader.py` lines 139-150):
`to_date(RecordDate, "yyyy-MMM-dd")` yields NULL on a malformed date and
the row is kept. -/
structure NormRow where
  itemCode : String
  whsCode : String
  onHand : ℚ
  recordDate : Option String
  validFor : String
  deriving Repr, DecidableEq

/-- Date normalisation step, `reader.py` lines 139-150, with the parser
(`to_date` under the legacy time-parser policy) as parameter `pd`. -/
def normalizeDates (pd : String → Option String) (rows : List CleanRow) :
    List NormRow :=
  rows.map fun r => ⟨r.itemCode, r.whsCode, r.onHand, pd r.recordDate, r.validFor⟩

/-- A row of the curated output (`reader.py` lines 191-212): key fields,
repaired and raw `OnHand`, flag.  The auxiliary constant-zero columns
are omitted; no claim mentions them. -/
structure OutRow where
  itemCode : String
  whsCode : String
  recordDate : Option String
  onHand : Option ℚ
  onHandRaw : Option ℚ
  outlierFlag : Bool
  validFor : String
  deriving Repr, DecidableEq

/-- The business key of an output row. -/
def bkeyO (r : OutRow) : String × String × Option String :=
  (r.itemCode, r.whsCode, r.recordDate)

/-- Strictly-above comparison of nullable `OnHand` values in the
`desc_nulls_last` order used by `reader.py` line 203 and
`utils.py` line 99 (`col("OnHand").desc()`, which in Spark is
descending with nulls last): any number sorts above NULL. -/
def ogt : Option ℚ → Option ℚ → Bool
  | some a, some b => decide (b < a)
  | some _, none => true
  | none, _ => false

/-- Safety deduplication after repair, `reader.py` lines 202-204:
partition by the business key, order by `OnHand` descending nulls last,
keep `row_number() == 1` (the highest `OnHand`). -/
def safety_dedup (rows : List OutRow) : List OutRow :=
  dedupBy bkeyO (fun s b => ogt s.onHand b.onHand) rows

/-- `deduplicate_by_keys` of `utils.py` lines 92-101 with its default
arguments (keys = business key, order by `OnHand` descending). -/
def deduplicate_by_keys (rows : List OutRow) : List OutRow :=
  dedupBy bkeyO (fun s b => ogt s.onHand b.onHand) rows

/-- The Series Merger, `merge.py` lines 19-24: union the per-period
curated tables by column name (one shared schema, so list
concatenation) and deduplicate on the business key. -/
def merge_tables (tables : List (List OutRow)) : List OutRow :=
  deduplicate_by_keys tables.flatten

/-- The staged wide table as Spark reads it back (`reader.py` line 90):
a header row of column names and data rows of nullable string cells. -/
structure WideTable where
  header : List String
  rows : List (List (Option String))
  deriving Repr, DecidableEq

/-- One long row produced by the unpivot (`reader.py` lines 110-117). -/
structure LongRow where
  itemCode : Option String
  whsCode : String
  onHand : Option String
  recordDate : Option String
  deriving Repr, DecidableEq

/-- Bool-valued prefix test on character lists. -/
def isPrefChars : List Char → List Char → Bool
  | [], _ => true
  | _ :: _, [] => false
  | a :: asx, b :: bs => a = b && isPrefChars asx bs

/-- Bool-valued substring test on character lists (`"Date" in str(c)`
of `reader.py` line 95). -/
def hasInfixChars (pat : List Char) : List Char → Bool
  | [] => isPrefChars pat []
  | c :: rest => isPrefChars pat (c :: rest) || hasInfixChars pat rest

/-- A column is a date-marker column iff its name contains `"Date"`
(`reader.py` line 95). -/
def isDateCol (name : String) : Bool :=
  hasInfixChars "Date".toList name.toList

/-- `c.split('.')[0]` of `reader.py` line 113: the warehouse column's
short name. -/
def shortName (c : String) : String :=
  String.mk (c.toList.takeWhile (fun ch => ch ≠ '.'))

/-- The `(start, dateIdx)` bounds of each wide block
(`reader.py` lines 103-105): the first block starts at column 1, each
later block starts right after the previous date-marker column. -/
def blockList : List ℕ → ℕ → List (ℕ × ℕ)
  | [], _ => []
  | d :: rest, s => (s, d) :: blockList rest (d + 1)

/-- The long rows emitted for the block `[s, d)` of a table
(`stack` over `reader.py` lines 110-117): for every data row, one
output row per warehouse column, with the block date broadcast from the
first data row's date-marker cell (`df.first()[date_idx]`, line 101). -/
def blockRows (t : WideTable) (s d : ℕ) : List LongRow :=
  (t.rows.map fun row =>
    (List.range (d - s)).map fun j =>
      { itemCode := row.getD 0 none
        whsCode := shortName (t.header.getD (s + j) "")
        onHand := row.getD (s + j) none
        recordDate := (t.rows.headD []).getD d none }).flatten

/-- The indices of the date-marker columns (`reader.py` line 95). -/
def dateIdxsOf (t : WideTable) : List ℕ :=
  (List.range t.header.length).filter fun i => isDateCol (t.header.getD i "")

/-- The Reshaper, `reader.py` lines 92-121.  `none` models a run the
Python code aborts: `df.first()` is `None` on a table with no data rows
(indexing it raises, line 101), and `reduce(DataFrame.unionByName, [])`
raises when no block contributed a frame (line 121); blocks with no
warehouse columns are skipped without error (`continue`, line 107). -/
def reshape (t : WideTable) : Option (List LongRow) :=
  if dateIdxsOf t ≠ [] ∧ t.rows = [] then none
  else if (blockList (dateIdxsOf t) 1).filter (fun b => decide (0 < b.2 - b.1)) = []
    then none
  else some
    ((((blockList (dateIdxsOf t) 1).filter fun b => decide (0 < b.2 - b.1)).map
        fun b => blockRows t b.1 b.2).flatten)

/-- The per-block warehouse-column counts of a table, empty blocks
included (spec §4.1's "number of warehouse columns in each block"). -/
def blockWidths (t : WideTable) : List ℕ :=
  (blockList (dateIdxsOf t) 1).map fun b => b.2 - b.1

theorem qabs_eq_abs (x : ℚ) : qabs x = |x| := by
  unfold qabs; split
  · exact (abs_of_neg (by assumption)).symm
  · exact (abs_of_nonneg (le_of_not_lt (by assumption))).symm

-- sanity checks: neighbour lookups use PRE-repair values, so in the series
-- [10, 10, 5000, 12, 11] the row holding 12 is itself flagged against the
-- pre-repair 5000 and replaced by it
example :
    repairSeries 500 5 [some 10, some 10, some 5000, some 12, some 11] =
      [some 10, some 10, some 10, some 5000, some 11] := by
  simp [repairSeries, filled_onhand, is_outlier, abs_change, rel_change,
    prev_non_null, next_non_null, lastValid, firstValid, List.range_succ, qabs]
  norm_num

example :
    flagSeries 500 5 [some 10, some 10, some 5000, some 12, some 11] =
      [false, false, true, true, false] := by
  simp [flagSeries, is_outlier, abs_change, rel_change,
    prev_non_null, next_non_null, lastValid, firstValid, List.range_succ, qabs]
  norm_num

-- spec §8 "Leading-null repair"
example :
    repairSeries 500 5 [none, none, some 20, some 22] =
      [some 20, some 20, some 20, some 22] := by
  simp [repairSeries, filled_onhand, is_outlier, abs_change, rel_change,
    prev_non_null, next_non_null, lastValid, firstValid, List.range_succ, qabs]
  norm_num

-- spec §8 "No-neighbor case"
example : repairSeries 500 5 [none] = [none] := by
  simp [repairSeries, filled_onhand, is_outlier, abs_change, rel_change,
    prev_non_null, next_non_null, lastValid, firstValid, List.range_succ]

example : castDouble "abc" = none := by decide
example : castDouble "3" = some 3 := by decide
example : castDouble "-3" = some (-3) := by decide
example : (castDouble "12.5").isSome = true := by decide
example : castDouble "12.5.3" = none := by decide
example : isDateCol "SDate1" = true := by decide
example : isDateCol "W1" = false := by decide
example : shortName "W1.1" = "W1" := by decide
example : shortName "W1" = "W1" := by decide

example :
    dedupAsc [⟨"A", "W", 9, "d", "Y"⟩, ⟨"A", "W", 8, "d", "Y"⟩] =
      [⟨"A", "W", 8, "d", "Y"⟩] := by decide

example :
    reshape ⟨["Item", "W1", "W2", "Date1"],
      [[some "A", some "5", some "7", some "2024-Jan-02"]]⟩ =
      some [⟨some "A", "W1", some "5", some "2024-Jan-02"⟩,
            ⟨some "A", "W2", some "7", some "2024-Jan-02"⟩] := by decide

example : reshape ⟨["Item", "Date1"], [[some "A", some "2024-Jan-02"]]⟩ = none := by
  decide

/-! ## Indexing lemmas for the series stage -/

theorem length_flagSeries (aj rj : ℚ) (xs : List (Option ℚ)) :
    (flagSeries aj rj xs).length = xs.length := by
  simp [flagSeries]

theorem length_repairSeries (aj rj : ℚ) (xs : List (Option ℚ)) :
    (repairSeries aj rj xs).length = xs.length := by
  simp [repairSeries]

theorem length_repairStage (aj rj : ℚ) (xs : List (Option ℚ)) :
    (repairStage aj rj xs).length = xs.length := by
  simp [repairStage]

theorem flagSeries_getD (aj rj : ℚ) (xs : List (Option ℚ)) (i : ℕ)
    (h : i < xs.length) :
    (flagSeries aj rj xs).getD i false =
      is_outlier aj rj (xs.getD i none) (prev_non_null xs i) := by
  simp [flagSeries, List.getD_eq_getElem?_getD, List.getElem?_range h]

theorem repairSeries_getD (aj rj : ℚ) (xs : List (Option ℚ)) (i : ℕ)
    (h : i < xs.length) :
    (repairSeries aj rj xs).getD i none =
      filled_onhand (is_outlier aj rj (xs.getD i none) (prev_non_null xs i))
        (xs.getD i none) (prev_non_null xs i) (next_non_null xs i) := by
  simp [repairSeries, List.getD_eq_getElem?_getD, List.getElem?_range h]

theorem repairStage_getD (aj rj : ℚ) (xs : List (Option ℚ)) (i : ℕ)
    (h : i < xs.length) :
    (repairStage aj rj xs).getD i ⟨none, none, false⟩ =
      { onHand := filled_onhand
          (is_outlier aj rj (xs.getD i none) (prev_non_null xs i))
          (xs.getD i none) (prev_non_null xs i) (next_non_null xs i)
        onHandRaw := xs.getD i none
        outlierFlag := is_outlier aj rj (xs.getD i none) (prev_non_null xs i) } := by
  simp [repairStage, List.getD_eq_getElem?_getD, List.getElem?_range h]

/-! ## Characterisation of the neighbour lookups -/

theorem lastValid_eq_none_iff (l : List (Option ℚ)) :
    lastValid l = none ↔ ∀ o ∈ l, o = none := by
  induction l with
  | nil => simp [lastValid]
  | cons o rest ih =>
    unfold lastValid
    cases hr : lastValid rest with
    | some v =>
      simp only [List.mem_cons]
      constructor
      · intro h; cases h
      · intro h
        have : lastValid rest = none := (ih).mpr (fun o ho => h o (Or.inr ho))
        rw [hr] at this; cases this
    | none =>
      simp only [List.mem_cons]
      constructor
      · intro h o ho
        rcases ho with rfl | ho
        · exact h
        · exact (ih.mp hr) o ho
      · intro h; exact h o (Or.inl rfl)

theorem lastValid_eq_some_iff (l : List (Option ℚ)) (p : ℚ) :
    lastValid l = some p ↔
      ∃ l₁ l₂, l = l₁ ++ some p :: l₂ ∧ ∀ o ∈ l₂, o = none := by
  induction l with
  | nil =>
    constructor
    · intro h; cases h
    · rintro ⟨l₁, l₂, hl, -⟩
      rcases l₁ with _ | ⟨a, l₁'⟩ <;> simp at hl
  | cons o rest ih =>
    constructor
    · intro h
      unfold lastValid at h
      cases hr : lastValid rest with
      | some v =>
        rw [hr] at h
        obtain rfl : v = p := by injection h
        obtain ⟨l₁, l₂, rfl, h₂⟩ := ih.mp hr
        exact ⟨o :: l₁, l₂, rfl, h₂⟩
      | none =>
        rw [hr] at h
        subst h
        exact ⟨[], rest, rfl, (lastValid_eq_none_iff rest).mp hr⟩
    · rintro ⟨l₁, l₂, hl, h₂⟩
      cases l₁ with
      | nil =>
        obtain ⟨rfl, h1⟩ : o = some p ∧ rest = l₂ := by
          simpa using hl
        unfold lastValid
        rw [show lastValid rest = none from
          (lastValid_eq_none_iff rest).mpr (by rw [h1]; exact h₂)]
      | cons a l₁' =>
        obtain ⟨rfl, hrest⟩ : o = a ∧ rest = l₁' ++ some p :: l₂ := by
          simpa using hl
        unfold lastValid
        rw [ih.mpr ⟨l₁', l₂, hrest, h₂⟩]

theorem firstValid_eq_none_iff (l : List (Option ℚ)) :
    firstValid l = none ↔ ∀ o ∈ l, o = none := by
  induction l with
  | nil => simp [firstValid]
  | cons o rest ih =>
    cases o with
    | none => simpa [firstValid] using ih
    | some v => simp [firstValid]

theorem firstValid_cons_none (rest : List (Option ℚ)) :
    firstValid (none :: rest) = firstValid rest := rfl

theorem firstValid_append_allnone (l₁ l₂ : List (Option ℚ))
    (h : ∀ o ∈ l₁, o = none) :
    firstValid (l₁ ++ l₂) = firstValid l₂ := by
  induction l₁ with
  | nil => rfl
  | cons o rest ih =>
    have ho : o = none := h o (List.mem_cons_self o rest)
    subst ho
    rw [List.cons_append, firstValid_cons_none]
    exact ih (fun o ho => h o (List.mem_cons_of_mem _ ho))

theorem getD_take_of_lt (xs : List (Option ℚ)) {i j : ℕ} (hj : j < i) :
    (xs.take i).getD j none = xs.getD j none := by
  simp [List.getD_eq_getElem?_getD, List.getElem?_take_of_lt hj]

theorem getD_eq_some_getElem? (xs : List (Option ℚ)) (j : ℕ) (p : ℚ)
    (h : xs.getD j none = some p) : xs[j]? = some (some p) := by
  rw [List.getD_eq_getElem?_getD] at h
  cases hj : xs[j]? with
  | none => rw [hj] at h; cases h
  | some o => rw [hj] at h; simpa using h

theorem prev_non_null_eq_none_iff (xs : List (Option ℚ)) (i : ℕ) :
    prev_non_null xs i = none ↔ ∀ j, j < i → xs.getD j none = none := by
  rw [prev_non_null, lastValid_eq_none_iff]
  constructor
  · intro h j hj
    rw [List.getD_eq_getElem?_getD]
    cases hjl : xs[j]? with
    | none => rfl
    | some o =>
      have hmem : o ∈ xs.take i := by
        have : (xs.take i)[j]? = some o := by
          rw [List.getElem?_take_of_lt hj]; exact hjl
        exact List.getElem?_mem this
      simp [h o hmem]
  · intro h o ho
    obtain ⟨j, hj, hjo⟩ := List.getElem_of_mem ho
    have hji : j < i := lt_of_lt_of_le hj (by simp)
    have : (xs.take i).getD j none = o := by
      rw [List.getD_eq_getElem?_getD, List.getElem?_eq_getElem hj, hjo]
      rfl
    rw [getD_take_of_lt xs hji] at this
    rw [← this]
    exact h j hji

theorem prev_non_null_eq_some_iff (xs : List (Option ℚ)) (i : ℕ)
    (h : i ≤ xs.length) (p : ℚ) :
    prev_non_null xs i = some p ↔
      ∃ j, j < i ∧ xs.getD j none = some p ∧
        ∀ k, j < k → k < i → xs.getD k none = none := by
  have hlen : (xs.take i).length = i := by simpa using h
  rw [prev_non_null, lastValid_eq_some_iff]
  constructor
  · rintro ⟨l₁, l₂, hdec, h₂⟩
    refine ⟨l₁.length, ?_, ?_, ?_⟩
    · have := hlen
      rw [hdec] at this
      simp at this
      omega
    · have h1 : (xs.take i)[l₁.length]? = some (some p) := by
        rw [hdec, List.getElem?_append_right le_rfl]
        simp
      have hji : l₁.length < i := by
        have := hlen; rw [hdec] at this; simp at this; omega
      rw [List.getElem?_take_of_lt hji] at h1
      rw [List.getD_eq_getElem?_getD, h1]
      rfl
    · intro k hk hki
      have hkl : (xs.take i)[k]? = l₂[k - l₁.length - 1]? := by
        rw [hdec, List.getElem?_append_right (le_of_lt hk)]
        have : k - l₁.length = (k - l₁.length - 1) + 1 := by omega
        rw [this]
        simp
      have hkin : k < (xs.take i).length := by rw [hlen]; exact hki
      cases ho : (xs.take i)[k]? with
      | none =>
        rw [List.getElem?_eq_none_iff] at ho
        omega
      | some o =>
        have homem : o ∈ l₂ := List.getElem?_mem (by rw [← hkl]; exact ho)
        have hon : o = none := h₂ o homem
        subst hon
        have : (xs.take i).getD k none = none := by
          rw [List.getD_eq_getElem?_getD, ho]; rfl
        rwa [getD_take_of_lt xs hki] at this
  · rintro ⟨j, hji, hjv, hnone⟩
    have hjlen : j < xs.length := by
      by_contra hge
      rw [List.getD_eq_getElem?_getD, List.getElem?_eq_none (le_of_not_lt hge)] at hjv
      cases hjv
    refine ⟨xs.take j, (xs.take i).drop (j + 1), ?_, ?_⟩
    · have hstep : xs.take i = xs.take (j + 1) ++ (xs.take i).drop (j + 1) := by
        have h1 : (xs.take i).take (j + 1) = xs.take (j + 1) := by
          rw [List.take_take, min_eq_left (by omega)]
        conv_lhs => rw [← List.take_append_drop (j + 1) (xs.take i)]
        rw [h1]
      have h2 : xs.take (j + 1) = xs.take j ++ [some p] := by
        rw [List.take_succ, getD_eq_some_getElem? xs j p hjv]
        rfl
      conv_lhs => rw [hstep, h2]
      simp
    · intro o ho
      obtain ⟨m, hm, hmo⟩ := List.getElem_of_mem ho
      have hd : ((xs.take i).drop (j + 1))[m]? = (xs.take i)[j + 1 + m]? := by
        rw [List.getElem?_drop]
      have hmlen : j + 1 + m < i := by
        have := hm
        simp [hlen] at this
        omega
      have : (xs.take i)[j + 1 + m]? = some o := by
        rw [← hd, List.getElem?_eq_getElem hm, hmo]
      rw [List.getElem?_take_of_lt hmlen] at this
      have hnm : xs.getD (j + 1 + m) none = none :=
        hnone (j + 1 + m) (by omega) hmlen
      rw [List.getD_eq_getElem?_getD, this] at hnm
      simpa using hnm

/-! ## Basic facts about the outlier predicate -/

theorem is_outlier_prev_none (aj rj : ℚ) (v : Option ℚ) :
    is_outlier aj rj v none = false := by
  cases v <;> rfl

theorem is_outlier_val_none (aj rj : ℚ) (p : Option ℚ) :
    is_outlier aj rj none p = false := by
  cases p <;> rfl

theorem is_outlier_some_iff (aj rj x p : ℚ) :
    is_outlier aj rj (some x) (some p) = true ↔
      (qabs (x - p) > aj ∨ (p ≠ 0 ∧ qabs ((x - p) / p) > rj)) := by
  by_cases hp : p = 0
  · subst hp
    simp [is_outlier, abs_change, rel_change]
  · simp [is_outlier, abs_change, rel_change, hp]

theorem is_outlier_imp_prev_isSome (aj rj : ℚ) (v p : Option ℚ)
    (h : is_outlier aj rj v p = true) : ∃ pv, p = some pv := by
  cases p with
  | none => rw [is_outlier_prev_none] at h; cases h
  | some pv => exact ⟨pv, rfl⟩

theorem is_outlier_self (aj rj a : ℚ) (h1 : 0 ≤ aj) (h2 : 0 ≤ rj) :
    is_outlier aj rj (some a) (some a) = false := by
  rw [Bool.eq_false_iff]
  intro h
  rw [is_outlier_some_iff] at h
  rcases h with h | ⟨hne, h⟩
  · rw [sub_self] at h
    simp [qabs] at h
    exact absurd h (not_lt.mpr h1)
  · rw [sub_self, zero_div] at h
    simp [qabs] at h
    exact absurd h (not_lt.mpr h2)

/-! ## Claim C1 -/

/-- C1 (amended): a row is flagged iff its value is non-null, it has a
previous valid value `p` (the nearest earlier non-null value of the
series), and either `|x - p| > abs_jump` or `p ≠ 0` and
`|(x - p)/p| > rel_jump`; a row with no previous valid value is never
flagged, and the relative change does not fire when `p = 0`.  (The
original claim divided `|x - p|` by a signed `p`; the code takes the
absolute value of the whole quotient.) -/
theorem outlier_flag_iff (aj rj : ℚ) (xs : List (Option ℚ)) (i : ℕ)
    (h : i < xs.length) :
    ((flagSeries aj rj xs).getD i false = true ↔
      ∃ x p, xs.getD i none = some x ∧ prev_non_null xs i = some p ∧
        (|x - p| > aj ∨ (p ≠ 0 ∧ |(x - p) / p| > rj)))
    ∧ (prev_non_null xs i = none → (flagSeries aj rj xs).getD i false = false)
    ∧ (∀ p : ℚ, prev_non_null xs i = some p ↔
        ∃ j, j < i ∧ xs.getD j none = some p ∧
          ∀ k, j < k → k < i → xs.getD k none = none) := by
  refine ⟨?_, ?_, fun p => prev_non_null_eq_some_iff xs i (le_of_lt h) p⟩
  · rw [flagSeries_getD aj rj xs i h]
    cases hv : xs.getD i none with
    | none =>
      rw [is_outlier_val_none]
      simp
    | some x =>
      cases hp : prev_non_null xs i with
      | none =>
        rw [is_outlier_prev_none]
        simp
      | some p =>
        rw [is_outlier_some_iff, qabs_eq_abs, qabs_eq_abs]
        constructor
        · intro hcond
          exact ⟨x, p, rfl, rfl, hcond⟩
        · rintro ⟨x', p', hx', hp', hcond⟩
          have hx : x = x' := by injection hx'
          have hpp : p = p' := by injection hp'
          rw [hx, hpp]
          exact hcond
  · intro hp
    rw [flagSeries_getD aj rj xs i h, hp, is_outlier_prev_none]

/-- Witness for `outlier_flag_iff` at the concrete series `[10, 1000]`,
row 1, thresholds 500 / 5. -/
theorem outlier_flag_iff_witness :
    (((flagSeries 500 5 [some 10, some 1000]).getD 1 false = true ↔
      ∃ x p, ([some 10, some 1000] : List (Option ℚ)).getD 1 none = some x ∧
        prev_non_null [some 10, some 1000] 1 = some p ∧
        (|x - p| > 500 ∨ (p ≠ 0 ∧ |(x - p) / p| > 5)))
    ∧ (prev_non_null [some 10, some 1000] 1 = none →
        (flagSeries 500 5 [some 10, some 1000]).getD 1 false = false)
    ∧ (∀ p : ℚ, prev_non_null [some 10, some 1000] 1 = some p ↔
        ∃ j, j < 1 ∧ ([some 10, some 1000] : List (Option ℚ)).getD j none = some p ∧
          ∀ k, j < k → k < 1 →
            ([some 10, some 1000] : List (Option ℚ)).getD k none = none)) :=
  outlier_flag_iff 500 5 [some 10, some 1000] 1 (by decide)

/-- Counterexample to C1 as stated: with a NEGATIVE previous valid value
`-1` and current value `10`, the code flags the row (it compares
`|(10 - (-1))/(-1)| = 11 > 5`), while the claim's formula
`|10 - (-1)| / (-1) = -11 > 5` is false and its absolute clause
`|10 - (-1)| > 1000` is false too. -/
theorem outlier_rel_change_signed_cex :
    (flagSeries 1000 5 [some (-1), some 10]).getD 1 false = true ∧
    ([some (-1), some 10] : List (Option ℚ)).getD 1 none = some 10 ∧
    prev_non_null [some (-1), some 10] 1 = some (-1) ∧
    ¬ ((|(10 : ℚ) - (-1)| > 1000) ∨
        (((-1) : ℚ) ≠ 0 ∧ |(10 : ℚ) - (-1)| / (-1) > 5)) := by
  refine ⟨?_, by decide, by decide, by norm_num⟩
  rw [flagSeries_getD 1000 5 _ 1 (by decide)]
  have hv : ([some (-1), some 10] : List (Option ℚ)).getD 1 none = some 10 := by
    decide
  have hp : prev_non_null [some (-1), some 10] 1 = some (-1) := by decide
  rw [hv, hp, is_outlier_some_iff]
  right
  constructor
  · norm_num
  · rw [qabs_eq_abs]
    norm_num

/-! ## Claim C2 -/

theorem filled_onhand_eq_specRepairRule (f : Bool) (v p q : Option ℚ) :
    filled_onhand f v p q = specRepairRule f v p q := by
  cases f <;> cases v <;> cases p <;> cases q <;> rfl

/-- C2: per row, the repaired value follows the spec's five-clause
first-match rule; the pre-repair value is retained in `OnHand_raw`; and
`OutlierFlag` is true exactly when one of the two outlier clauses
fired. -/
theorem repair_first_match (aj rj : ℚ) (xs : List (Option ℚ)) (i : ℕ)
    (h : i < xs.length) :
    ((repairStage aj rj xs).getD i ⟨none, none, false⟩).onHand =
      specRepairRule (is_outlier aj rj (xs.getD i none) (prev_non_null xs i))
        (xs.getD i none) (prev_non_null xs i) (next_non_null xs i)
    ∧ ((repairStage aj rj xs).getD i ⟨none, none, false⟩).onHandRaw =
        xs.getD i none
    ∧ (((repairStage aj rj xs).getD i ⟨none, none, false⟩).outlierFlag = true ↔
        ((is_outlier aj rj (xs.getD i none) (prev_non_null xs i) = true ∧
            (prev_non_null xs i).isSome = true) ∨
         (is_outlier aj rj (xs.getD i none) (prev_non_null xs i) = true ∧
            prev_non_null xs i = none ∧ (next_non_null xs i).isSome = true))) := by
  rw [repairStage_getD aj rj xs i h]
  refine ⟨filled_onhand_eq_specRepairRule _ _ _ _, rfl, ?_⟩
  constructor
  · intro hf
    obtain ⟨pv, hpv⟩ := is_outlier_imp_prev_isSome aj rj _ _ hf
    exact Or.inl ⟨hf, by rw [hpv]; rfl⟩
  · rintro (⟨hf, -⟩ | ⟨hf, -, -⟩) <;> exact hf

/-- Witness for `repair_first_match` at the series `[10, 1000, null]`,
row 1, thresholds 500 / 5. -/
theorem repair_first_match_witness :
    (((repairStage 500 5 [some 10, some 1000, none]).getD 1
        ⟨none, none, false⟩).onHand =
      specRepairRule
        (is_outlier 500 5 (([some 10, some 1000, none] : List (Option ℚ)).getD 1 none)
          (prev_non_null [some 10, some 1000, none] 1))
        (([some 10, some 1000, none] : List (Option ℚ)).getD 1 none)
        (prev_non_null [some 10, some 1000, none] 1)
        (next_non_null [some 10, some 1000, none] 1))
    ∧ (((repairStage 500 5 [some 10, some 1000, none]).getD 1
        ⟨none, none, false⟩).onHandRaw =
        ([some 10, some 1000, none] : List (Option ℚ)).getD 1 none)
    ∧ ((((repairStage 500 5 [some 10, some 1000, none]).getD 1
        ⟨none, none, false⟩).outlierFlag = true) ↔
        ((is_outlier 500 5 (([some 10, some 1000, none] : List (Option ℚ)).getD 1 none)
            (prev_non_null [some 10, some 1000, none] 1) = true ∧
            (prev_non_null [some 10, some 1000, none] 1).isSome = true) ∨
         (is_outlier 500 5 (([some 10, some 1000, none] : List (Option ℚ)).getD 1 none)
            (prev_non_null [some 10, some 1000, none] 1) = true ∧
            prev_non_null [some 10, some 1000, none] 1 = none ∧
            (next_non_null [some 10, some 1000, none] 1).isSome = true))) :=
  repair_first_match 500 5 [some 10, some 1000, none] 1 (by decide)

/-! ## Claim C10 -/

/-- C10: a flagged row always has a previous valid value (the flag needs a
computable change metric), so the outlier-from-next-valid clause is
unreachable and every flagged row is repaired from `prev_valid`. -/
theorem outlier_repaired_from_prev (aj rj : ℚ) (xs : List (Option ℚ)) (i : ℕ)
    (hf : (flagSeries aj rj xs).getD i false = true) :
    ∃ p, prev_non_null xs i = some p ∧
      (repairSeries aj rj xs).getD i none = some p := by
  have hi : i < xs.length := by
    by_contra hge
    have hlen : (flagSeries aj rj xs).length ≤ i := by
      rw [length_flagSeries]; omega
    rw [List.getD_eq_getElem?_getD, List.getElem?_eq_none hlen] at hf
    cases hf
  rw [flagSeries_getD aj rj xs i hi] at hf
  obtain ⟨pv, hpv⟩ := is_outlier_imp_prev_isSome aj rj _ _ hf
  refine ⟨pv, hpv, ?_⟩
  rw [repairSeries_getD aj rj xs i hi, hf, hpv]
  simp [filled_onhand]

/-- Witness for `outlier_repaired_from_prev` at the series `[10, 1000]`,
row 1, thresholds 500 / 5. -/
theorem outlier_repaired_from_prev_witness :
    ∃ p, prev_non_null [some 10, some 1000] 1 = some p ∧
      (repairSeries 500 5 [some 10, some 1000]).getD 1 none = some p :=
  outlier_repaired_from_prev 500 5 [some 10, some 1000] 1 (by
    rw [flagSeries_getD 500 5 _ 1 (by decide)]
    have hv : ([some 10, some 1000] : List (Option ℚ)).getD 1 none = some 1000 := by
      decide
    have hp : prev_non_null [some 10, some 1000] 1 = some 10 := by decide
    rw [hv, hp, is_outlier_some_iff]
    left
    rw [qabs_eq_abs]
    norm_num)

/-! ## Claim C4: idempotence of the detector on repaired output -/

theorem filled_onhand_false_some (x : ℚ) (p q : Option ℚ) :
    filled_onhand false (some x) p q = some x := rfl

theorem filled_onhand_false_none_some (pv : ℚ) (q : Option ℚ) :
    filled_onhand false none (some pv) q = some pv := rfl

theorem filled_onhand_false_none_none (q : Option ℚ) :
    filled_onhand false none none q = q := by
  cases q <;> rfl

theorem lastValid_take_of_getD_last (l : List (Option ℚ)) (i : ℕ) (p : ℚ)
    (hpos : 0 < i) (hcell : l.getD (i - 1) none = some p) :
    lastValid (l.take i) = some p := by
  have hi : i = (i - 1) + 1 := by omega
  have htake : l.take i = l.take (i - 1) ++ [some p] := by
    rw [hi, List.take_succ, getD_eq_some_getElem? l (i - 1) p hcell]
    rfl
  rw [htake, lastValid_eq_some_iff]
  exact ⟨l.take (i - 1), [], rfl, by simp⟩

theorem lastValid_of_all_eq (l : List (Option ℚ)) (c : Option ℚ)
    (h : ∀ o ∈ l, o = c) :
    lastValid l = if l = [] then none else c := by
  induction l with
  | nil => rfl
  | cons o rest ih =>
    have ho : o = c := h o (List.mem_cons_self o rest)
    have hrest := ih (fun o ho' => h o (List.mem_cons_of_mem _ ho'))
    rw [if_neg (List.cons_ne_nil o rest)]
    unfold lastValid
    cases rest with
    | nil => exact ho
    | cons a t =>
      rw [if_neg (List.cons_ne_nil a t)] at hrest
      rw [hrest]
      cases c with
      | none => exact ho
      | some v => rfl

theorem firstValid_drop_add (xs : List (Option ℚ)) (d k : ℕ)
    (h : ∀ m, k ≤ m → m < k + d → xs.getD m none = none) :
    firstValid (xs.drop k) = firstValid (xs.drop (k + d)) := by
  induction d generalizing k with
  | zero => rfl
  | succ d ih =>
    by_cases hk : k < xs.length
    · have h0 : xs.getD k none = none := h k le_rfl (by omega)
      have hdrop : xs.drop k = none :: xs.drop (k + 1) := by
        rw [List.drop_eq_getElem_cons hk]
        congr 1
        rw [List.getD_eq_getElem?_getD, List.getElem?_eq_getElem hk] at h0
        simpa using h0
      rw [hdrop, firstValid_cons_none]
      have hstep := ih (k + 1) (fun m hm1 hm2 => h m (by omega) (by omega))
      have harith : k + 1 + d = k + (d + 1) := by omega
      rw [harith] at hstep
      exact hstep
    · have h1 : xs.drop k = [] := List.drop_eq_nil_of_le (le_of_not_lt hk)
      have h2 : xs.drop (k + (d + 1)) = [] :=
        List.drop_eq_nil_of_le (by omega)
      rw [h1, h2]

/-- Counterexample to C4 as stated: on the series `[10, 1000, 1200]` with
thresholds 500 / 5, the first pass flags only the middle row and repairs
it to 10, giving `[10, 10, 1200]`; a second pass over the repaired values
flags the last row (`|1200 - 10| > 500`), so the detector is not
idempotent on repaired output. -/
theorem outlier_idempotence_cex :
    (flagSeries 500 5 (repairSeries 500 5 [some 10, some 1000, some 1200])).getD
      2 false = true := by
  have h1 : repairSeries 500 5 [some 10, some 1000, some 1200] =
      [some 10, some 10, some 1200] := by
    simp [repairSeries, filled_onhand, is_outlier, abs_change, rel_change,
      prev_non_null, next_non_null, lastValid, firstValid, List.range_succ, qabs]
    norm_num
  rw [h1, flagSeries_getD 500 5 _ 2 (by decide)]
  have hv : ([some 10, some 10, some 1200] : List (Option ℚ)).getD 2 none =
      some 1200 := by decide
  have hp : prev_non_null [some 10, some 10, some 1200] 2 = some 10 := by decide
  rw [hv, hp, is_outlier_some_iff]
  left
  rw [qabs_eq_abs]
  norm_num

/-- C4 (amended): the second detector pass flags nothing PROVIDED the
first pass flagged nothing (and the thresholds are non-negative): a
repaired series then only has nulls filled from neighbouring values, and
those repairs create no new jumps.  When the first pass does flag, a
second pass can flag fresh rows (see the counterexample), because
neighbour lookups use pre-repair values. -/
theorem second_pass_flags_nothing (aj rj : ℚ) (h1 : 0 ≤ aj) (h2 : 0 ≤ rj)
    (xs : List (Option ℚ))
    (H : ∀ i, i < xs.length → (flagSeries aj rj xs).getD i false = false) :
    ∀ i, i < xs.length →
      (flagSeries aj rj (repairSeries aj rj xs)).getD i false = false := by
  intro i hi
  have hlen : (repairSeries aj rj xs).length = xs.length :=
    length_repairSeries aj rj xs
  have Hflag : ∀ j, j < xs.length →
      is_outlier aj rj (xs.getD j none) (prev_non_null xs j) = false := by
    intro j hj
    rw [← flagSeries_getD aj rj xs j hj]
    exact H j hj
  have hyval : ∀ j, j < xs.length →
      (repairSeries aj rj xs).getD j none =
        filled_onhand false (xs.getD j none) (prev_non_null xs j)
          (next_non_null xs j) := by
    intro j hj
    rw [repairSeries_getD aj rj xs j hj, Hflag j hj]
  rw [flagSeries_getD aj rj _ i (by omega)]
  cases hp : prev_non_null xs i with
  | some p =>
    obtain ⟨j, hji, hjv, hjnone⟩ :=
      (prev_non_null_eq_some_iff xs i (le_of_lt hi) p).mp hp
    have hprev_cell : (repairSeries aj rj xs).getD (i - 1) none = some p := by
      by_cases hj : j = i - 1
      · rw [← hj]
        rw [hyval j (by omega), hjv, filled_onhand_false_some]
      · have hv1 : xs.getD (i - 1) none = none :=
          hjnone (i - 1) (by omega) (by omega)
        have hp1 : prev_non_null xs (i - 1) = some p :=
          (prev_non_null_eq_some_iff xs (i - 1) (by omega) p).mpr
            ⟨j, by omega, hjv, fun k hk1 hk2 => hjnone k hk1 (by omega)⟩
        rw [hyval (i - 1) (by omega), hv1, hp1, filled_onhand_false_none_some]
    have hplast : prev_non_null (repairSeries aj rj xs) i = some p := by
      rw [prev_non_null]
      exact lastValid_take_of_getD_last _ i p (by omega) hprev_cell
    cases hv : xs.getD i none with
    | some x =>
      have hyv : (repairSeries aj rj xs).getD i none = some x := by
        rw [hyval i hi, hv, filled_onhand_false_some]
      rw [hyv, hplast]
      have hins := Hflag i hi
      rw [hv, hp] at hins
      exact hins
    | none =>
      have hyv : (repairSeries aj rj xs).getD i none = some p := by
        rw [hyval i hi, hv, hp, filled_onhand_false_none_some]
      rw [hyv, hplast]
      exact is_outlier_self aj rj p h1 h2
  | none =>
    have hallnone : ∀ k, k < i → xs.getD k none = none :=
      (prev_non_null_eq_none_iff xs i).mp hp
    have hyk : ∀ k, k < i →
        (repairSeries aj rj xs).getD k none = firstValid (xs.drop i) := by
      intro k hk
      have hvk : xs.getD k none = none := hallnone k hk
      have hpk : prev_non_null xs k = none :=
        (prev_non_null_eq_none_iff xs k).mpr (fun m hm => hallnone m (by omega))
      rw [hyval k (by omega), hvk, hpk, filled_onhand_false_none_none]
      show next_non_null xs k = firstValid (xs.drop i)
      rw [next_non_null]
      have harith : k + 1 + (i - (k + 1)) = i := by omega
      have hstep := firstValid_drop_add xs (i - (k + 1)) (k + 1)
        (fun m hm1 hm2 => hallnone m (by omega))
      rw [harith] at hstep
      exact hstep
    rcases Nat.eq_zero_or_pos i with hi0 | hipos
    · subst hi0
      have hpz : prev_non_null (repairSeries aj rj xs) 0 = none := rfl
      rw [hpz, is_outlier_prev_none]
    · have hmem : ∀ o ∈ (repairSeries aj rj xs).take i,
          o = firstValid (xs.drop i) := by
        intro o ho
        obtain ⟨m, hm, hmo⟩ := List.getElem_of_mem ho
        have hmi : m < i := lt_of_lt_of_le hm (by simp)
        have hval : ((repairSeries aj rj xs).take i).getD m none = o := by
          rw [List.getD_eq_getElem?_getD, List.getElem?_eq_getElem hm, hmo]
          rfl
        rw [getD_take_of_lt _ hmi] at hval
        rw [← hval]
        exact hyk m hmi
      have htake_ne : (repairSeries aj rj xs).take i ≠ [] := by
        have hlt : ((repairSeries aj rj xs).take i).length = i := by
          rw [List.length_take]
          omega
        intro hnil
        rw [hnil] at hlt
        simp at hlt
        omega
      have hplast : prev_non_null (repairSeries aj rj xs) i =
          firstValid (xs.drop i) := by
        rw [prev_non_null, lastValid_of_all_eq _ _ hmem, if_neg htake_ne]
      cases hcv : firstValid (xs.drop i) with
      | none =>
        rw [hplast, hcv, is_outlier_prev_none]
      | some a =>
        cases hv : xs.getD i none with
        | some x =>
          have hdropi : xs.drop i = some x :: xs.drop (i + 1) := by
            rw [List.drop_eq_getElem_cons hi]
            congr 1
            rw [List.getD_eq_getElem?_getD, List.getElem?_eq_getElem hi] at hv
            simpa using hv
          have hceq : firstValid (xs.drop i) = some x := by
            rw [hdropi]
            rfl
          have hax : a = x := by
            rw [hcv] at hceq
            injection hceq
          have hyv : (repairSeries aj rj xs).getD i none = some x := by
            rw [hyval i hi, hv, filled_onhand_false_some]
          rw [hyv, hplast, hcv, hax]
          exact is_outlier_self aj rj x h1 h2
        | none =>
          have hdropi : xs.drop i = none :: xs.drop (i + 1) := by
            rw [List.drop_eq_getElem_cons hi]
            congr 1
            rw [List.getD_eq_getElem?_getD, List.getElem?_eq_getElem hi] at hv
            simpa using hv
          have hyv : (repairSeries aj rj xs).getD i none =
              firstValid (xs.drop i) := by
            rw [hyval i hi, hv, hp, filled_onhand_false_none_none]
            show next_non_null xs i = firstValid (xs.drop i)
            rw [next_non_null, hdropi, firstValid_cons_none]
          rw [hyv, hplast, hcv]
          exact is_outlier_self aj rj a h1 h2

/-- Witness for `second_pass_flags_nothing` on the series
`[10, 12, null, 11]`: the first pass flags nothing, and neither does the
second pass on the repaired series; instantiated at row 2. -/
theorem second_pass_flags_nothing_witness :
    (flagSeries 500 5 (repairSeries 500 5 [some 10, some 12, none, some 11])).getD
      2 false = false :=
  second_pass_flags_nothing 500 5 (by norm_num) (by norm_num)
    [some 10, some 12, none, some 11]
    (by
      intro i hi
      simp only [List.length_cons, List.length_nil] at hi
      have hfs : flagSeries 500 5 [some 10, some 12, none, some 11] =
          [false, false, false, false] := by
        simp [flagSeries, is_outlier, abs_change, rel_change,
          prev_non_null, next_non_null, lastValid, firstValid,
          List.range_succ, qabs]
        norm_num
      rw [hfs]
      interval_cases i <;> rfl)
    2 (by norm_num)

/-! ## Generic facts about the window-dedup embedding -/

section Dedup

variable {α κ : Type} [DecidableEq κ] (key : α → κ) (better : α → α → Bool)

theorem pickBest_cons (r s : α) (t : List α) :
    pickBest better r (s :: t) =
      pickBest better (if better s r then s else r) t := by
  simp [pickBest]

theorem pickBest_mem (r : α) (l : List α) : pickBest better r l ∈ r :: l := by
  induction l generalizing r with
  | nil => simp [pickBest]
  | cons s t ih =>
    rw [pickBest_cons]
    by_cases hsr : better s r = true
    · rw [if_pos hsr]
      have := ih s
      rw [List.mem_cons] at this ⊢
      rcases this with heq | hmem
      · exact Or.inr (by rw [heq]; exact List.mem_cons_self s t)
      · exact Or.inr (List.mem_cons_of_mem s hmem)
    · rw [if_neg hsr]
      have := ih r
      rw [List.mem_cons] at this ⊢
      rcases this with heq | hmem
      · exact Or.inl heq
      · exact Or.inr (List.mem_cons_of_mem s hmem)

theorem pickBest_not_better
    (Hirr : ∀ a, better a a = false)
    (Htr2 : ∀ a b c, better a b = true → better a c = false → better b c = false)
    (Htr3 : ∀ a b c, better a b = false → better b c = false → better a c = false)
    (r : α) (l : List α) :
    ∀ s ∈ r :: l, better s (pickBest better r l) = false := by
  induction l generalizing r with
  | nil =>
    intro s hs
    rw [List.mem_cons] at hs
    rcases hs with rfl | hs
    · simpa [pickBest] using Hirr s
    · cases hs
  | cons a t ih =>
    intro s hs
    rw [List.mem_cons] at hs
    rw [pickBest_cons]
    by_cases hab : better a r = true
    · rw [if_pos hab]
      rcases hs with rfl | hs
      · exact Htr2 a s _ hab (ih a _ (List.mem_cons_self a t))
      · rw [List.mem_cons] at hs
        rcases hs with rfl | hs
        · exact ih s _ (List.mem_cons_self s t)
        · exact ih a s (List.mem_cons_of_mem a hs)
    · rw [if_neg hab]
      have hab' : better a r = false := by
        cases h : better a r
        · rfl
        · exact absurd h hab
      rcases hs with rfl | hs
      · exact ih s _ (List.mem_cons_self s t)
      · rw [List.mem_cons] at hs
        rcases hs with rfl | hs
        · exact Htr3 s r _ hab' (ih r _ (List.mem_cons_self r t))
        · exact ih r s (List.mem_cons_of_mem r hs)

theorem dedupByF_nil (fuel : ℕ) : dedupByF key better fuel [] = [] := by
  cases fuel <;> rfl

theorem dedupByF_succ_cons (fuel : ℕ) (r : α) (rest : List α) :
    dedupByF key better (fuel + 1) (r :: rest) =
      pickBest better r (rest.filter fun s => key s = key r) ::
        dedupByF key better fuel (rest.filter fun s => ¬ key s = key r) := rfl

theorem key_pickBest (r : α) (grp : List α)
    (h : ∀ s ∈ grp, key s = key r) :
    key (pickBest better r grp) = key r := by
  have hmem := pickBest_mem better r grp
  rw [List.mem_cons] at hmem
  rcases hmem with heq | hmem
  · rw [heq]
  · exact h _ hmem

theorem dedupByF_mem_input (fuel : ℕ) :
    ∀ (l : List α) (x : α), x ∈ dedupByF key better fuel l → x ∈ l := by
  induction fuel with
  | zero =>
    intro l x hx
    cases l with
    | nil => rw [dedupByF_nil] at hx; cases hx
    | cons r rest => cases hx
  | succ fuel ih =>
    intro l x hx
    cases l with
    | nil => rw [dedupByF_nil] at hx; cases hx
    | cons r rest =>
      rw [dedupByF_succ_cons, List.mem_cons] at hx
      rcases hx with rfl | hx
      · have := pickBest_mem better r (rest.filter fun s => key s = key r)
        rw [List.mem_cons] at this
        rcases this with heq | hmem
        · rw [heq]; exact List.mem_cons_self r rest
        · exact List.mem_cons_of_mem r (List.mem_filter.mp hmem).1
      · exact List.mem_cons_of_mem r (List.mem_filter.mp (ih _ x hx)).1

theorem dedupByF_keys_nodup (fuel : ℕ) :
    ∀ l : List α, l.length ≤ fuel →
      ((dedupByF key better fuel l).map key).Nodup := by
  induction fuel with
  | zero =>
    intro l hl
    have : l = [] := List.length_eq_zero.mp (Nat.le_zero.mp hl)
    subst this
    rw [dedupByF_nil]
    exact List.nodup_nil
  | succ fuel ih =>
    intro l hl
    cases l with
    | nil => rw [dedupByF_nil]; exact List.nodup_nil
    | cons r rest =>
      rw [dedupByF_succ_cons, List.map_cons, List.nodup_cons]
      constructor
      · intro hmem
        rw [List.mem_map] at hmem
        obtain ⟨x, hx, hkx⟩ := hmem
        have hxin := dedupByF_mem_input key better fuel _ x hx
        have hxkey : ¬ key x = key r := by
          have := (List.mem_filter.mp hxin).2
          exact of_decide_eq_true this
        have hbest : key (pickBest better r
            (rest.filter fun s => key s = key r)) = key r := by
          apply key_pickBest
          intro s hs
          exact of_decide_eq_true (List.mem_filter.mp hs).2
        rw [hbest] at hkx
        exact hxkey hkx
      · exact ih _ (le_trans (List.length_filter_le _ rest)
          (Nat.le_of_succ_le_succ hl))

theorem dedupByF_exists_best
    (Hirr : ∀ a, better a a = false)
    (Htr2 : ∀ a b c, better a b = true → better a c = false → better b c = false)
    (Htr3 : ∀ a b c, better a b = false → better b c = false → better a c = false)
    (fuel : ℕ) :
    ∀ l : List α, l.length ≤ fuel → ∀ k : κ,
      (∃ s ∈ l, key s = k) →
        ∃ r ∈ dedupByF key better fuel l, key r = k ∧ r ∈ l ∧
          ∀ s ∈ l, key s = k → better s r = false := by
  induction fuel with
  | zero =>
    intro l hl k hk
    have : l = [] := List.length_eq_zero.mp (Nat.le_zero.mp hl)
    subst this
    obtain ⟨s, hs, -⟩ := hk
    cases hs
  | succ fuel ih =>
    intro l hl k hk
    cases l with
    | nil =>
      obtain ⟨s, hs, -⟩ := hk
      cases hs
    | cons r rest =>
      by_cases hkr : key r = k
      · -- the key is the head's key: the winner is the head group's best
        refine ⟨pickBest better r (rest.filter fun s => key s = key r),
          ?_, ?_, ?_, ?_⟩
        · rw [dedupByF_succ_cons]
          exact List.mem_cons_self _ _
        · rw [key_pickBest key better r _
            (fun s hs => of_decide_eq_true (List.mem_filter.mp hs).2)]
          exact hkr
        · have := pickBest_mem better r (rest.filter fun s => key s = key r)
          rw [List.mem_cons] at this
          rcases this with heq | hmem
          · rw [heq]; exact List.mem_cons_self r rest
          · exact List.mem_cons_of_mem r (List.mem_filter.mp hmem).1
        · intro s hs hks
          rw [List.mem_cons] at hs
          rcases hs with heq | hs
          · rw [heq]
            exact pickBest_not_better better Hirr Htr2 Htr3 r _ r
              (List.mem_cons_self r _)
          · apply pickBest_not_better better Hirr Htr2 Htr3 r _ s
            apply List.mem_cons_of_mem
            rw [List.mem_filter]
            exact ⟨hs, decide_eq_true (by rw [hks, hkr])⟩
      · -- the key lives in the tail partition
        obtain ⟨s₀, hs₀, hks₀⟩ := hk
        rw [List.mem_cons] at hs₀
        rcases hs₀ with rfl | hs₀
        · exact absurd hks₀ hkr
        have hs₀f : s₀ ∈ rest.filter fun s => ¬ key s = key r := by
          rw [List.mem_filter]
          refine ⟨hs₀, decide_eq_true ?_⟩
          rw [hks₀]
          exact fun h => hkr h.symm
        obtain ⟨w, hw, hkw, hwin, hbest⟩ :=
          ih (rest.filter fun s => ¬ key s = key r)
            (le_trans (List.length_filter_le _ rest)
              (Nat.le_of_succ_le_succ hl)) k ⟨s₀, hs₀f, hks₀⟩
        refine ⟨w, ?_, hkw, ?_, ?_⟩
        · rw [dedupByF_succ_cons]
          exact List.mem_cons_of_mem _ hw
        · exact List.mem_cons_of_mem r (List.mem_filter.mp hwin).1
        · intro s hs hks
          rw [List.mem_cons] at hs
          rcases hs with rfl | hs
          · exact absurd hks hkr
          · apply hbest
            · rw [List.mem_filter]
              refine ⟨hs, decide_eq_true ?_⟩
              rw [hks]
              exact fun h => hkr h.symm
            · exact hks

theorem dedupBy_keys_nodup (l : List α) :
    ((dedupBy key better l).map key).Nodup :=
  dedupByF_keys_nodup key better l.length l le_rfl

theorem dedupBy_mem_input (l : List α) (x : α) (hx : x ∈ dedupBy key better l) :
    x ∈ l :=
  dedupByF_mem_input key better l.length l x hx

theorem dedupBy_exists_best
    (Hirr : ∀ a, better a a = false)
    (Htr2 : ∀ a b c, better a b = true → better a c = false → better b c = false)
    (Htr3 : ∀ a b c, better a b = false → better b c = false → better a c = false)
    (l : List α) (k : κ) (hk : ∃ s ∈ l, key s = k) :
    ∃ r ∈ dedupBy key better l, key r = k ∧ r ∈ l ∧
      ∀ s ∈ l, key s = k → better s r = false :=
  dedupByF_exists_best key better Hirr Htr2 Htr3 l.length l le_rfl k hk

theorem nodup_keys_unique {l : List α} (hnd : (l.map key).Nodup)
    {x y : α} (hx : x ∈ l) (hy : y ∈ l) (hkey : key x = key y) : x = y :=
  List.inj_on_of_nodup_map hnd hx hy hkey

end Dedup

/-! ## Order properties of the two window orderings -/

theorem ascB_irrefl (a : CleanRow) : decide (a.onHand < a.onHand) = false := by
  simp

theorem ascB_tr2 (a b c : CleanRow) (h1 : decide (a.onHand < b.onHand) = true)
    (h2 : decide (a.onHand < c.onHand) = false) :
    decide (b.onHand < c.onHand) = false := by
  rw [decide_eq_true_eq] at h1
  rw [decide_eq_false_iff_not] at h2 ⊢
  intro hbc
  exact h2 (lt_trans h1 hbc)

theorem ascB_tr3 (a b c : CleanRow) (h1 : decide (a.onHand < b.onHand) = false)
    (h2 : decide (b.onHand < c.onHand) = false) :
    decide (a.onHand < c.onHand) = false := by
  rw [decide_eq_false_iff_not] at h1 h2 ⊢
  intro hac
  rcases lt_or_le a.onHand b.onHand with h | h
  · exact h1 h
  · exact h2 (lt_of_le_of_lt h hac)

theorem ogt_irrefl (x : Option ℚ) : ogt x x = false := by
  cases x <;> simp [ogt]

theorem ogt_tr2 (a b c : Option ℚ) (h1 : ogt a b = true) (h2 : ogt a c = false) :
    ogt b c = false := by
  cases a <;> cases b <;> cases c <;> simp_all [ogt] <;> linarith

theorem ogt_tr3 (a b c : Option ℚ) (h1 : ogt a b = false) (h2 : ogt b c = false) :
    ogt a c = false := by
  cases a <;> cases b <;> cases c <;> simp_all [ogt] <;> linarith

/-! ## Claim C3 -/

/-- Counterexample to C3 as stated: two rows colliding on the business key
with `OnHand` 9 and 8; the Structural Cleaner's dedup keeps the row with
8 — the LOWEST, not the highest — because `reader.py` line 136 orders the
window by `OnHand` ascending. -/
theorem dedup_highest_cex :
    dedupAsc [⟨"A", "W1", 9, "2024-Dec-31", "Y"⟩,
              ⟨"A", "W1", 8, "2024-Dec-31", "Y"⟩] =
      [⟨"A", "W1", 8, "2024-Dec-31", "Y"⟩] ∧
    bkeyC ⟨"A", "W1", 9, "2024-Dec-31", "Y"⟩ =
      bkeyC ⟨"A", "W1", 8, "2024-Dec-31", "Y"⟩ ∧
    (8 : ℚ) < 9 := by
  refine ⟨by decide, by decide, by norm_num⟩

/-- C3 (amended): in the Structural Cleaner's business-key deduplication,
every key that occurs among the rows keeps exactly one representative,
and it is a colliding row with the LOWEST `on_hand` (the window is
ordered ascending and `row_number() == 1` is kept). -/
theorem dedupAsc_keeps_lowest (rows : List CleanRow)
    (k : String × String × String) (hk : ∃ s ∈ rows, bkeyC s = k) :
    ∃ r ∈ dedupAsc rows, bkeyC r = k ∧ r ∈ rows ∧
      ∀ s ∈ rows, bkeyC s = k → r.onHand ≤ s.onHand := by
  obtain ⟨r, hr, hkr, hrin, hbest⟩ :=
    dedupBy_exists_best bkeyC (fun s b => decide (s.onHand < b.onHand))
      ascB_irrefl ascB_tr2 ascB_tr3 rows k hk
  refine ⟨r, hr, hkr, hrin, fun s hs hks => ?_⟩
  have := hbest s hs hks
  rw [decide_eq_false_iff_not] at this
  exact le_of_not_lt this

/-- Witness for `dedupAsc_keeps_lowest` on the two-row collision of the
counterexample's shape. -/
theorem dedupAsc_keeps_lowest_witness :
    ∃ r ∈ dedupAsc [⟨"A", "W1", 9, "2024-Dec-31", "Y"⟩,
        ⟨"A", "W1", 8, "2024-Dec-31", "Y"⟩],
      bkeyC r = ("A", "W1", "2024-Dec-31") ∧
      r ∈ [(⟨"A", "W1", 9, "2024-Dec-31", "Y"⟩ : CleanRow),
           ⟨"A", "W1", 8, "2024-Dec-31", "Y"⟩] ∧
      ∀ s ∈ [(⟨"A", "W1", 9, "2024-Dec-31", "Y"⟩ : CleanRow),
           ⟨"A", "W1", 8, "2024-Dec-31", "Y"⟩],
        bkeyC s = ("A", "W1", "2024-Dec-31") → r.onHand ≤ s.onHand :=
  dedupAsc_keeps_lowest _ ("A", "W1", "2024-Dec-31") (by decide)

/-! ## Claim C6 -/

/-- C6: a raw `"DC"` cell is assigned `ValidFor = "N"` by the marking step,
is removed by the immediately following filter, and therefore contributes
no numeric observation to any series: the structurally-cleaned table is
the same as if the row were absent. -/
theorem dc_sentinel (castD : String → Option ℚ) (r : RawRow)
    (h : r.onHand = some "DC") :
    validForOf r = "N" ∧ cleanRow? castD r = none ∧
    ∀ pre post : List RawRow,
      structuralClean castD (pre ++ r :: post) =
        structuralClean castD (pre ++ post) := by
  have hclean : cleanRow? castD r = none := by
    rcases r with ⟨ic, wc, oh, rd⟩
    simp only at h
    subst h
    cases ic <;> cases wc <;> cases rd <;> simp [cleanRow?]
  refine ⟨by rw [validForOf, if_pos h], hclean, ?_⟩
  intro pre post
  rw [structuralClean, structuralClean, List.filterMap_append,
    List.filterMap_append, List.filterMap_cons, hclean]

/-- Witness for `dc_sentinel` at a concrete "DC" row placed between two
ordinary rows. -/
theorem dc_sentinel_witness :
    validForOf ⟨some "A", some "W1", some "DC", some "2024-Jan-02"⟩ = "N" ∧
    cleanRow? castDouble ⟨some "A", some "W1", some "DC", some "2024-Jan-02"⟩ =
      none ∧
    structuralClean castDouble
        [⟨some "B", some "W1", some "7", some "2024-Jan-02"⟩,
         ⟨some "A", some "W1", some "DC", some "2024-Jan-02"⟩] =
      structuralClean castDouble
        [⟨some "B", some "W1", some "7", some "2024-Jan-02"⟩] :=
  ⟨(dc_sentinel castDouble _ rfl).1, (dc_sentinel castDouble _ rfl).2.1,
    (dc_sentinel castDouble _ rfl).2.2
      [⟨some "B", some "W1", some "7", some "2024-Jan-02"⟩] []⟩

/-! ## Claim C5 -/

/-- Counterexample to C5 as stated: a row whose `OnHand` holds the
non-numeric residue `"abc"` does NOT flow into the null-repair path — the
cast yields NULL and the `!= 0.0` filter drops the row, so the cleaned
table is empty and nothing reaches the Outlier Detector. -/
theorem nonnumeric_residue_cex :
    structuralClean castDouble
      [⟨some "A", some "W1", some "abc", some "2024-Jan-02"⟩] = [] := by
  decide

/-- C5 (amended): a non-numeric residue casts to NULL and the row is then
REMOVED by the `OnHand != 0.0` filter (a NULL comparison is not true), so
it never reaches the Outlier Detector's repair path; a malformed date, by
contrast, leaves the row in place with a NULL `RecordDate`.  In neither
case does the pipeline abort — the cleaning is a total function. -/
theorem nonnumeric_residue_dropped (castD : String → Option ℚ)
    (pd : String → Option String) (r : RawRow) (oh : String)
    (h1 : r.onHand = some oh) (h2 : castD oh = none) :
    cleanRow? castD r = none ∧
    ∀ rows : List CleanRow, ∀ c ∈ rows, pd c.recordDate = none →
      (⟨c.itemCode, c.whsCode, c.onHand, none, c.validFor⟩ : NormRow) ∈
        normalizeDates pd rows := by
  constructor
  · rcases r with ⟨ic, wc, oh', rd⟩
    simp only at h1
    subst h1
    by_cases hdc : oh = "DC" <;>
      cases ic <;> cases wc <;> cases rd <;> simp [cleanRow?, hdc, h2]
  · intro rows c hc hpd
    rw [normalizeDates, ← hpd]
    exact List.mem_map_of_mem _ hc

/-- Witness for `nonnumeric_residue_dropped` with the concrete cast model,
an always-failing date parser, and a one-row table. -/
theorem nonnumeric_residue_dropped_witness :
    cleanRow? castDouble ⟨some "A", some "W1", some "abc", some "x"⟩ = none ∧
    (⟨"A", "W1", 8, none, "Y"⟩ : NormRow) ∈
      normalizeDates (fun _ => none) [⟨"A", "W1", 8, "baddate", "Y"⟩] :=
  ⟨(nonnumeric_residue_dropped castDouble (fun _ => none) _ "abc" rfl
      (by decide)).1,
   (nonnumeric_residue_dropped castDouble (fun _ => none)
      ⟨some "A", some "W1", some "abc", some "x"⟩ "abc" rfl (by decide)).2
      [⟨"A", "W1", 8, "baddate", "Y"⟩] ⟨"A", "W1", 8, "baddate", "Y"⟩
      (List.mem_cons_self _ _) rfl⟩

/-! ## Claim C7 -/

/-- C7: no two rows of the per-period curated output (after the safety
dedup) nor of the merged output share a business key. -/
theorem output_key_uniqueness :
    (∀ rows : List OutRow, ((safety_dedup rows).map bkeyO).Nodup) ∧
    (∀ tables : List (List OutRow), ((merge_tables tables).map bkeyO).Nodup) := by
  constructor
  · intro rows
    exact dedupBy_keys_nodup bkeyO _ rows
  · intro tables
    exact dedupBy_keys_nodup bkeyO _ tables.flatten

/-! ## Claim C8 -/

/-- C8: the Series Merger concatenates the period tables and keeps, for
every business key present, exactly one row — a row of the concatenation
with that key over which no colliding row wins the descending `OnHand`
order; in particular any colliding numeric value is ≤ the winner's. -/
theorem merge_dedup_highest (tables : List (List OutRow))
    (k : String × String × Option String)
    (hk : ∃ s ∈ tables.flatten, bkeyO s = k) :
    ∃ r ∈ merge_tables tables, bkeyO r = k ∧ r ∈ tables.flatten ∧
      (∀ s ∈ tables.flatten, bkeyO s = k → ogt s.onHand r.onHand = false) ∧
      (∀ s ∈ tables.flatten, bkeyO s = k → ∀ qs, s.onHand = some qs →
        ∃ qr, r.onHand = some qr ∧ qs ≤ qr) ∧
      (∀ s ∈ merge_tables tables, bkeyO s = k → s = r) := by
  obtain ⟨r, hr, hkr, hrin, hbest⟩ :=
    dedupBy_exists_best bkeyO (fun s b => ogt s.onHand b.onHand)
      (fun a => ogt_irrefl a.onHand)
      (fun a b c h1 h2 => ogt_tr2 _ _ _ h1 h2)
      (fun a b c h1 h2 => ogt_tr3 _ _ _ h1 h2)
      tables.flatten k hk
  refine ⟨r, hr, hkr, hrin, hbest, ?_, ?_⟩
  · intro s hs hks qs hqs
    have hfalse := hbest s hs hks
    rw [hqs] at hfalse
    cases hro : r.onHand with
    | none => rw [hro] at hfalse; cases hfalse
    | some qr =>
      rw [hro] at hfalse
      refine ⟨qr, rfl, ?_⟩
      simp only [ogt, decide_eq_false_iff_not] at hfalse
      exact le_of_not_lt hfalse
  · intro s hs hks
    exact nodup_keys_unique bkeyO (dedupBy_keys_nodup bkeyO _ tables.flatten)
      hs hr (by rw [hks, hkr])

/-- Witness for `merge_dedup_highest`: the spec §8 example — the key
`(A, W1, 2024-12-31)` appears in two periods with `OnHand` 8 and 9; one
row survives and 8, 9 are both ≤ its value. -/
theorem merge_dedup_highest_witness :
    ∃ r ∈ merge_tables
        [[⟨"A", "W1", some "2024-12-31", some 8, some 8, false, "Y"⟩],
         [⟨"A", "W1", some "2024-12-31", some 9, some 9, false, "Y"⟩]],
      bkeyO r = ("A", "W1", some "2024-12-31") ∧
      r ∈ ([[⟨"A", "W1", some "2024-12-31", some 8, some 8, false, "Y"⟩],
            [⟨"A", "W1", some "2024-12-31", some 9, some 9, false, "Y"⟩]] :
          List (List OutRow)).flatten ∧
      (∀ s ∈ ([[⟨"A", "W1", some "2024-12-31", some 8, some 8, false, "Y"⟩],
            [⟨"A", "W1", some "2024-12-31", some 9, some 9, false, "Y"⟩]] :
          List (List OutRow)).flatten,
        bkeyO s = ("A", "W1", some "2024-12-31") →
          ogt s.onHand r.onHand = false) ∧
      (∀ s ∈ ([[⟨"A", "W1", some "2024-12-31", some 8, some 8, false, "Y"⟩],
            [⟨"A", "W1", some "2024-12-31", some 9, some 9, false, "Y"⟩]] :
          List (List OutRow)).flatten,
        bkeyO s = ("A", "W1", some "2024-12-31") → ∀ qs, s.onHand = some qs →
          ∃ qr, r.onHand = some qr ∧ qs ≤ qr) ∧
      (∀ s ∈ merge_tables
          [[⟨"A", "W1", some "2024-12-31", some 8, some 8, false, "Y"⟩],
           [⟨"A", "W1", some "2024-12-31", some 9, some 9, false, "Y"⟩]],
        bkeyO s = ("A", "W1", some "2024-12-31") → s = r) :=
  merge_dedup_highest _ ("A", "W1", some "2024-12-31") (by decide)

/-! ## Claim C9 -/

theorem blockRows_length (t : WideTable) (s d : ℕ) :
    (blockRows t s d).length = t.rows.length * (d - s) := by
  rw [blockRows, List.length_flatten, List.map_map]
  simp [Function.comp_def, List.map_const', List.sum_replicate, smul_eq_mul]

theorem sum_filter_pos_widths (bs : List (ℕ × ℕ)) :
    (((bs.filter fun b => decide (0 < b.2 - b.1)).map fun b => b.2 - b.1).sum) =
      ((bs.map fun b => b.2 - b.1).sum) := by
  induction bs with
  | nil => rfl
  | cons b t ih =>
    rw [List.filter_cons]
    by_cases hb : 0 < b.2 - b.1
    · rw [if_pos (decide_eq_true hb), List.map_cons, List.sum_cons,
        List.map_cons, List.sum_cons, ih]
    · have hcond : ¬ (decide (0 < b.2 - b.1) = true) := by simp [hb]
      rw [if_neg hcond, ih, List.map_cons, List.sum_cons]
      omega

theorem sum_map_mul_left (n : ℕ) (bs : List (ℕ × ℕ)) :
    ((bs.map fun b => n * (b.2 - b.1)).sum) =
      n * ((bs.map fun b => b.2 - b.1).sum) := by
  induction bs with
  | nil => simp
  | cons b t ih => simp [List.map_cons, List.sum_cons, ih, Nat.mul_add]

/-- Counterexample to C9 as stated: a table whose only date-marker column
is adjacent to the item column (no warehouse columns before it).  The
claim says it contributes zero rows and raises no error, but the code
aborts: the block is skipped, the list of unpivoted frames is empty, and
`reduce(DataFrame.unionByName, [])` raises. -/
theorem reshape_empty_blocks_cex :
    reshape ⟨["Item", "Date1"], [[some "A", some "2024-Jan-02"]]⟩ = none := by
  decide

/-- C9 (amended): whenever the Reshaper succeeds (at least one block is
non-empty and there is a data row), the number of emitted rows is
(number of data rows) × (number of warehouse columns per block) summed
over all blocks — a block with no warehouse columns contributing zero and
raising nothing; in the degenerate case where EVERY block is empty (or
there is no data row) the run aborts instead of emitting zero rows. -/
theorem reshape_row_count (t : WideTable) (out : List LongRow)
    (h : reshape t = some out) :
    out.length = t.rows.length * (blockWidths t).sum := by
  rw [reshape] at h
  split_ifs at h with h1 h2
  have hout : out =
      ((((blockList (dateIdxsOf t) 1).filter fun b =>
          decide (0 < b.2 - b.1)).map fun b => blockRows t b.1 b.2).flatten) := by
    injection h with h'
    exact h'.symm
  rw [hout, List.length_flatten, List.map_map]
  have hmap : (((blockList (dateIdxsOf t) 1).filter fun b =>
      decide (0 < b.2 - b.1)).map (List.length ∘ fun b => blockRows t b.1 b.2)) =
      (((blockList (dateIdxsOf t) 1).filter fun b =>
        decide (0 < b.2 - b.1)).map fun b => t.rows.length * (b.2 - b.1)) := by
    apply List.map_congr_left
    intro b _
    exact blockRows_length t b.1 b.2
  rw [hmap, blockWidths, ← sum_filter_pos_widths (blockList (dateIdxsOf t) 1),
    sum_map_mul_left]

/-- Witness for `reshape_row_count` on a two-block table with widths 2 and
1 and two data rows: 2 × (2 + 1) = 6 rows. -/
theorem reshape_row_count_witness :
    ((reshape ⟨["Item", "W1", "W2", "Date1", "W3", "Date2"],
      [[some "A", some "1", some "2", some "2024-Jan-02", some "3",
        some "2024-Jan-03"],
       [some "B", some "4", some "5", some "2024-Jan-02", some "6",
        some "2024-Jan-03"]]⟩).getD []).length =
    (⟨["Item", "W1", "W2", "Date1", "W3", "Date2"],
      [[some "A", some "1", some "2", some "2024-Jan-02", some "3",
        some "2024-Jan-03"],
       [some "B", some "4", some "5", some "2024-Jan-02", some "6",
        some "2024-Jan-03"]]⟩ : WideTable).rows.length *
      (blockWidths ⟨["Item", "W1", "W2", "Date1", "W3", "Date2"],
        [[some "A", some "1", some "2", some "2024-Jan-02", some "3",
          some "2024-Jan-03"],
         [some "B", some "4", some "5", some "2024-Jan-02", some "6",
          some "2024-Jan-03"]]⟩).sum :=
  reshape_row_count _ _ (by decide)

end ETLStock
